import Mathlib

/-!
Verification of the concurrency coordination core of the
`java-multithreading` example repository (Python sources).

The development shallowly embeds the relevant parts of the sources:

* `src/thread_synchronization.py`: the lock-protected `Counter` and the
  `UnsafeCounter`, plus `increment_worker`.  Concurrent execution is
  modelled as a labelled transition system (`CSys`, `cstep`) in which an
  increment is split into the acquire/read step and the write/release
  step of its critical section, exactly as in the source.
* `src/producer_consumer.py`: the producer, the consumer loop and the
  orchestration of `run_producer_consumer_example`, modelled as a
  labelled transition system (`PCSys`, `pcstep`).  The backing
  `queue.Queue` (the spec's `BoundedQueue`) is Python standard library
  code and is modelled from the spec.
* `src/thread_pool.py`: `task`, the `as_completed` drain of
  `run_thread_pool_example` and `executor.map` of `map_example`; the
  pool machinery itself is standard library code modelled from the
  spec, with the nondeterministic completion order an explicit
  parameter.

All definitions are executable, so every concrete run used as a witness
evaluates by `decide` or `rfl`.
-/

namespace MT

/-! ### Sequential denotations of `Counter` and `UnsafeCounter`
(`src/thread_synchronization.py`).

Under sequential (uninterleaved) execution the lock of `Counter` is
uncontended and the `time.sleep` yield point is irrelevant, so each
`increment` is just the read-modify-write on `value`. -/

/-- `Counter.__init__` / the `value` field of the thread-safe counter. -/
structure Counter where
  value : Nat
deriving DecidableEq, Repr

/-- `Counter.increment`, sequential denotation: read `value` into
`current`, then write `current + 1` (the lock is held throughout). -/
def Counter.increment (c : Counter) : Counter :=
  let current := c.value
  { value := current + 1 }

/-- `Counter.get_value`: read `value` under the lock. -/
def Counter.get_value (c : Counter) : Nat :=
  c.value

/-- `UnsafeCounter.__init__`. -/
structure UnsafeCounter where
  value : Nat
deriving DecidableEq, Repr

/-- `UnsafeCounter.increment`, sequential denotation: read `value` into
`current`, then write `current + 1` (no lock). -/
def UnsafeCounter.increment (c : UnsafeCounter) : UnsafeCounter :=
  let current := c.value
  { value := current + 1 }

/-- `UnsafeCounter.get_value`. -/
def UnsafeCounter.get_value (c : UnsafeCounter) : Nat :=
  c.value

/-! ### `task` (`src/thread_pool.py`).

`task(task_id)` draws a random `duration`, sleeps for it, and returns
the triple `(task_id, task_id * task_id, duration)`.  The duration is
an oracle parameter of the embedding (the value `random.uniform`
produced). -/

/-- `task` from `src/thread_pool.py`: computes `result = task_id * task_id`
and returns `(task_id, result, duration)`; `duration` is the sampled
random sleep time, passed here as an explicit oracle. -/
def task (task_id : Nat) (duration : Nat) : Nat × Nat × Nat :=
  let result := task_id * task_id
  (task_id, result, duration)

/-! ### The bounded FIFO queue.

Modelled from the spec: the `BoundedQueue` of spec section 4.1, which in
the source is Python's standard-library `queue.Queue(maxsize)` (external
to `src/`): `put` appends when `count < capacity` and increments the
unfinished-task count, `get` removes the oldest item, `task_done`
(`markDone`) decrements the unfinished-task count.  A run of the queue
is an arbitrary interleaving of these completed operations, given as an
event trace; producer/consumer identity is irrelevant to the queue, so
any number of producers and consumers is covered. -/

/-- One completed queue operation, by any producer or consumer. -/
inductive QEvent (α : Type) where
  | put (x : α)
  | getOk
  | getEmpty
  | taskDone
deriving DecidableEq, Repr

/-- Queue state: the held items (oldest first) and the unfinished-task
count (`pending` of the spec: items put but not yet `markDone`d). -/
structure QSt (α : Type) where
  items : List α
  unfinished : Nat
deriving DecidableEq, Repr

/-- The empty starting queue. -/
def qinit {α : Type} : QSt α := ⟨[], 0⟩

/-- Run an event trace against the queue, threading the state and the
list of items returned by successful `get`s.  `none` means the trace is
not a possible run (an operation occurred that was not enabled: a `put`
completing on a full queue, a successful `get` on an empty one, a `get`
raising `Empty` on a non-empty one, or a stray `task_done`). -/
def qrun {α : Type} (cap : Nat) : List (QEvent α) → QSt α → List α → Option (QSt α × List α)
  | [], s, got => some (s, got)
  | QEvent.put x :: evs, s, got =>
      if s.items.length < cap then
        qrun cap evs ⟨s.items ++ [x], s.unfinished + 1⟩ got
      else none
  | QEvent.getOk :: evs, s, got =>
      match s.items with
      | [] => none
      | x :: rest => qrun cap evs ⟨rest, s.unfinished⟩ (got ++ [x])
  | QEvent.getEmpty :: evs, s, got =>
      if s.items.isEmpty then qrun cap evs s got else none
  | QEvent.taskDone :: evs, s, got =>
      match s.unfinished with
      | 0 => none
      | u + 1 => qrun cap evs ⟨s.items, u⟩ got

/-- The items put over a trace, in order of completion of their `put`s. -/
def putsOf {α : Type} : List (QEvent α) → List α
  | [] => []
  | QEvent.put x :: evs => x :: putsOf evs
  | _ :: evs => putsOf evs

/-- The producer's item names: `f"Item-{producer_id}-{i}"`
(`src/producer_consumer.py`). -/
def itemName (producer_id i : Nat) : String :=
  "Item-" ++ toString producer_id ++ "-" ++ toString i

/-- Core conservation lemma: along any run, the got list followed by the
current queue contents always equals the starting surplus followed by
the items put. -/
theorem qrun_got_append_items {α : Type} (cap : Nat) :
    ∀ (evs : List (QEvent α)) (s0 : QSt α) (g0 : List α) (s : QSt α) (g : List α),
      qrun cap evs s0 g0 = some (s, g) →
      g ++ s.items = (g0 ++ s0.items) ++ putsOf evs := by
  intro evs
  induction evs with
  | nil =>
      intro s0 g0 s g h
      simp only [qrun, Option.some.injEq, Prod.mk.injEq] at h
      simp [putsOf, ← h.1, ← h.2]
  | cons e evs ih =>
      intro s0 g0 s g h
      cases e with
      | put x =>
          simp only [qrun] at h
          split at h
          · have := ih _ _ _ _ h
            simpa [putsOf, List.append_assoc] using this
          · exact absurd h (by simp)
      | getOk =>
          simp only [qrun] at h
          cases hs : s0.items with
          | nil => rw [hs] at h; exact absurd h (by simp)
          | cons x rest =>
              rw [hs] at h
              have := ih _ _ _ _ h
              simp only [putsOf]
              rw [this]
              simp
      | getEmpty =>
          simp only [qrun] at h
          split at h
          · have := ih _ _ _ _ h
            simpa [putsOf] using this
          · exact absurd h (by simp)
      | taskDone =>
          simp only [qrun] at h
          cases hu : s0.unfinished with
          | zero => rw [hu] at h; exact absurd h (by simp)
          | succ u =>
              rw [hu] at h
              have := ih _ _ _ _ h
              simpa [putsOf] using this

/-! ### `get` on a queue snapshot.

Modelled from the spec: `get(timeout?)` of spec section 4.1
(`queue.Queue.get(timeout=...)`, external to `src/`): on a non-empty
queue it removes and returns the oldest item; a timeout on a queue that
stayed empty fails with `Empty` and touches nothing. -/

/-- The `Empty` error raised by a timed-out `get`. -/
inductive QError where
  | empty
deriving DecidableEq, Repr

/-- `get` on a queue snapshot: returns the oldest item and the new
state, or fails with `Empty` leaving the state as it was. -/
def qget {α : Type} (s : QSt α) : Except QError α × QSt α :=
  match s.items with
  | [] => (Except.error QError.empty, s)
  | x :: rest => (Except.ok x, ⟨rest, s.unfinished⟩)

/-- Queue validity: the count (number of held items) never exceeds the
fixed capacity. -/
def QValid {α : Type} (cap : Nat) (s : QSt α) : Prop :=
  s.items.length ≤ cap

/-- C2: over any run of the queue (any number of producers and
consumers, any interleaving), the items returned by `get` followed by
the items still held equal, as a list, exactly the items put — so
`|got| + |held| = |put|` and nothing is lost or duplicated. -/
theorem queue_conservation {α : Type} (cap : Nat) (evs : List (QEvent α))
    (s : QSt α) (g : List α) (h : qrun cap evs qinit [] = some (s, g)) :
    g ++ s.items = putsOf evs ∧ g.length + s.items.length = (putsOf evs).length := by
  have hc := qrun_got_append_items cap evs qinit [] s g h
  simp only [qinit, List.append_nil, List.nil_append] at hc
  refine ⟨hc, ?_⟩
  rw [← hc]
  simp

/-- Witness for C2 on a concrete two-producer/two-consumer style trace. -/
theorem queue_conservation_witness :
    (["a", "b"] ++ ([] : List String) =
        putsOf [QEvent.put "a", QEvent.getOk, QEvent.put "b", QEvent.taskDone,
          QEvent.getOk, QEvent.getEmpty, QEvent.taskDone]) ∧
      (["a", "b"] : List String).length + ([] : List String).length =
        (putsOf [QEvent.put "a", QEvent.getOk, QEvent.put "b", QEvent.taskDone,
          QEvent.getOk, QEvent.getEmpty, QEvent.taskDone]).length :=
  queue_conservation 10
    [QEvent.put "a", QEvent.getOk, QEvent.put "b", QEvent.taskDone,
      QEvent.getOk, QEvent.getEmpty, QEvent.taskDone]
    ⟨[], 0⟩ ["a", "b"] (by rfl)

/-- C5: in a single-producer run whose puts are `Item-pid-0 ..
Item-pid-(n-1)` in index order, the got sequence is always a prefix of
that sequence, and once the queue is empty every item has been dequeued
in exactly that index order (FIFO end-to-end). -/
theorem fifo_order (cap n producer_id : Nat) (evs : List (QEvent String))
    (s : QSt String) (g : List String)
    (hrun : qrun cap evs qinit [] = some (s, g))
    (hputs : putsOf evs = (List.range n).map (itemName producer_id)) :
    (∃ rest, g ++ rest = (List.range n).map (itemName producer_id)) ∧
      (s.items = [] → g = (List.range n).map (itemName producer_id)) := by
  have hc := qrun_got_append_items cap evs qinit [] s g hrun
  simp only [qinit, List.append_nil, List.nil_append] at hc
  rw [hputs] at hc
  exact ⟨⟨s.items, hc⟩, fun he => by simpa [he] using hc⟩

/-- Witness for C5: three items from producer 7, interleaved put/get. -/
theorem fifo_order_witness :
    [itemName 7 0, itemName 7 1, itemName 7 2] = (List.range 3).map (itemName 7) :=
  (fifo_order 10 3 7
      [QEvent.put (itemName 7 0), QEvent.getOk, QEvent.put (itemName 7 1),
        QEvent.put (itemName 7 2), QEvent.getOk, QEvent.getOk]
      ⟨[], 3⟩ [itemName 7 0, itemName 7 1, itemName 7 2] (by rfl) (by rfl)).2 rfl

/-- C8: on any valid queue state, `get` either succeeds — removing and
returning the oldest item, decrementing the count by one, keeping the
state valid — or fails with `Empty`, in which case the state is
unchanged (hence still valid) and the caller can retry; and it fails
with `Empty` exactly on the empty queue. -/
theorem get_empty_recoverable {α : Type} (cap : Nat) (s : QSt α) (hv : QValid cap s) :
    (∀ x s', qget s = (Except.ok x, s') →
        s.items.head? = some x ∧ s'.items = s.items.tail ∧
          s'.items.length = s.items.length - 1 ∧ s'.unfinished = s.unfinished ∧
          QValid cap s') ∧
      (∀ s', qget s = (Except.error QError.empty, s') → s' = s ∧ QValid cap s') ∧
      ((qget s).1 = Except.error QError.empty ↔ s.items = []) := by
  rcases s with ⟨items, unfinished⟩
  cases items with
  | nil =>
      refine ⟨?_, ?_, by simp [qget]⟩
      · intro x s' hx
        simp [qget] at hx
      · intro s' hs'
        simp only [qget, Prod.mk.injEq, true_and] at hs'
        subst hs'
        exact ⟨rfl, hv⟩
  | cons y rest =>
      refine ⟨?_, ?_, by simp [qget]⟩
      · intro x s' hx
        simp only [qget, Prod.mk.injEq, Except.ok.injEq] at hx
        obtain ⟨rfl, rfl⟩ := hx
        refine ⟨rfl, rfl, by simp, rfl, ?_⟩
        simp only [QValid, List.length_cons] at hv ⊢
        omega
      · intro s' hs'
        simp [qget] at hs'

/-- Witness for C8: `get` on the concrete queue `["a", "b"]`. -/
theorem get_empty_recoverable_witness :
    (["a", "b"] : List String).head? = some "a" ∧
      (⟨["b"], 2⟩ : QSt String).items = (["a", "b"] : List String).tail ∧
      (⟨["b"], 2⟩ : QSt String).items.length = (["a", "b"] : List String).length - 1 ∧
      (⟨["b"], 2⟩ : QSt String).unfinished = (⟨["a", "b"], 2⟩ : QSt String).unfinished ∧
      QValid 10 (⟨["b"], 2⟩ : QSt String) :=
  (get_empty_recoverable 10 ⟨["a", "b"], 2⟩ (by simp [QValid])).1 "a" ⟨["b"], 2⟩ rfl

/-- After `k` iterated sequential increments from zero, the safe
counter reads `k`. -/
theorem counter_iterate_value (k : Nat) : (Counter.increment^[k] ⟨0⟩).value = k := by
  induction k with
  | zero => rfl
  | succ n ih => rw [Function.iterate_succ_apply', Counter.increment, ih]

/-- After `k` iterated sequential increments from zero, the unsafe
counter reads `k`. -/
theorem unsafeCounter_iterate_value (k : Nat) : (UnsafeCounter.increment^[k] ⟨0⟩).value = k := by
  induction k with
  | zero => rfl
  | succ n ih => rw [Function.iterate_succ_apply', UnsafeCounter.increment, ih]

/-- C9: under sequential (uninterleaved) execution `Counter` and
`UnsafeCounter` compute the same function: both start at `0`, each
`increment` adds exactly one, and after `k` sequential increments both
`get_value` calls return `k`. -/
theorem counters_sequentially_equal (k : Nat) :
    (Counter.increment^[k] ⟨0⟩).get_value = k ∧
      (UnsafeCounter.increment^[k] ⟨0⟩).get_value = k ∧
      (∀ c : Counter, (Counter.increment c).value = c.value + 1) ∧
      (∀ c : UnsafeCounter, (UnsafeCounter.increment c).value = c.value + 1) :=
  ⟨counter_iterate_value k, unsafeCounter_iterate_value k,
    fun _ => rfl, fun _ => rfl⟩

/-! ### The worker pool (`src/thread_pool.py`).

Modelled from the spec: the `WorkerPool` machinery is Python's
standard-library `ThreadPoolExecutor` (external to `src/`).  Workers
complete the submitted tasks in a nondeterministic completion order,
here an explicit `order : List Nat` of task indices; a run is faithful
when `order` is a permutation of all submitted indices.  Each completed
task `i` contributes its result slot `fn inputsᵢ`; `executor.map`
(spec's `mapOrdered`) then reads the slots back in input order, while
`as_completed` (spec's `drainAsCompleted`) yields them in completion
order. -/

/-- The completed result slots of a pool run: in completion order, each
task index paired with the result of applying the task function to that
task's input. -/
def poolCompleted {α β : Type} (fn : α → β) (inputs : List α) (dflt : α)
    (order : List Nat) : List (Nat × β) :=
  order.map (fun i => (i, fn (inputs.getD i dflt)))

/-- `executor.map fn inputs` (spec's `mapOrdered`): after the run
completes, read each input index's result slot back in input order.
`dflt`/`dfltR` are placeholder values for out-of-range indices and
missing slots; a faithful run never uses them. -/
def mapOrdered {α β : Type} (fn : α → β) (inputs : List α) (dflt : α) (dfltR : β)
    (order : List Nat) : List β :=
  (List.range inputs.length).map
    (fun i => (List.lookup i (poolCompleted fn inputs dflt order)).getD dfltR)

/-- `square` from `map_example` (`src/thread_pool.py`). -/
def square (n : Nat) : Nat :=
  n * n

/-- The `(task_id, result)` pair that `run_thread_pool_example` keeps
from `future.result()` of task `i` with sampled duration `d`. -/
def taskResult (i d : Nat) : Nat × Nat :=
  ((task i d).1, (task i d).2.1)

/-- The `as_completed` retrieval loop of `run_thread_pool_example`
(spec's `drainAsCompleted`): collect `(task_id, result)` for each task
in completion order, `dur` giving each task's sampled duration. -/
def drainAsCompleted (dur : Nat → Nat) (order : List Nat) : List (Nat × Nat) :=
  order.map (fun i => taskResult i (dur i))

/-- Looking up a key that occurs in a key-indexed map of a function
always finds that function's value. -/
theorem lookup_map_pair (f : Nat → β) :
    ∀ (order : List Nat) (i : Nat), i ∈ order →
      List.lookup i (order.map (fun j => (j, f j))) = some (f i) := by
  intro order
  induction order with
  | nil => intro i hi; cases hi
  | cons j rest ih =>
      intro i hi
      by_cases hij : i = j
      · subst hij
        simp [List.lookup]
      · have hbeq : (i == j) = false := by simpa using hij
        have hmem : i ∈ rest := by
          cases hi with
          | head => exact absurd rfl hij
          | tail _ h => exact h
        simp only [List.map_cons, List.lookup, hbeq]
        exact ih i hmem

/-- Reading a list back through `getD` over its index range is the
identity, mapped through `fn`. -/
theorem map_range_getD {α β : Type} (fn : α → β) (dflt : α) :
    ∀ inputs : List α,
      (List.range inputs.length).map (fun i => fn (inputs.getD i dflt)) = inputs.map fn := by
  intro inputs
  induction inputs with
  | nil => rfl
  | cons a rest ih =>
      simp only [List.length_cons, List.range_succ_eq_map, List.map_cons, List.getD_cons_zero,
        List.map_map, List.map_cons]
      refine congrArg (fn a :: ·) ?_
      rw [← ih]
      exact List.map_congr_left (fun i _ => by simp [Function.comp])

/-- C6: whenever the pool completes every submitted index exactly once
— `order` a permutation of the input index range — `mapOrdered` returns
`fn` applied to each input, in input order, whatever the completion
order was. -/
theorem mapOrdered_input_order {α β : Type} (fn : α → β) (inputs : List α)
    (dflt : α) (dfltR : β) (order : List Nat)
    (h : List.Perm order (List.range inputs.length)) :
    mapOrdered fn inputs dflt dfltR order = inputs.map fn := by
  unfold mapOrdered
  have hmem : ∀ i ∈ List.range inputs.length, i ∈ order :=
    fun i hi => h.mem_iff.2 hi
  have hstep : ∀ i ∈ List.range inputs.length,
      (List.lookup i (poolCompleted fn inputs dflt order)).getD dfltR =
        fn (inputs.getD i dflt) := by
    intro i hi
    rw [poolCompleted, lookup_map_pair (fun j => fn (inputs.getD j dflt)) order i (hmem i hi)]
    rfl
  rw [List.map_congr_left hstep, map_range_getD]

/-- Witness for C6: `square` over `[0..9]` with reversed completion
order still yields the squares in input order. -/
theorem mapOrdered_input_order_witness :
    List.Perm ((List.range 10).reverse) (List.range 10) ∧
      mapOrdered square (List.range 10) 0 0 ((List.range 10).reverse) =
        [0, 1, 4, 9, 16, 25, 36, 49, 64, 81] :=
  ⟨by decide,
    (mapOrdered_input_order square (List.range 10) 0 0 ((List.range 10).reverse)
        (by decide)).trans (by decide)⟩

/-- C7: whenever the pool completes every one of the `n` submitted
handles exactly once, `drainAsCompleted` yields exactly `n` results,
each handle exactly once, and the collected pairs are a permutation of
the `n` submissions' `(task_id, task_id²)` results — none duplicated or
dropped. -/
theorem drainAsCompleted_exactly_once (n : Nat) (dur : Nat → Nat) (order : List Nat)
    (h : List.Perm order (List.range n)) :
    (drainAsCompleted dur order).length = n ∧
      List.Perm ((drainAsCompleted dur order).map Prod.fst) (List.range n) ∧
      List.Perm (drainAsCompleted dur order) ((List.range n).map (fun i => (i, i * i))) := by
  have hdrain : drainAsCompleted dur order = order.map (fun i => (i, i * i)) := rfl
  refine ⟨?_, ?_, ?_⟩
  · rw [hdrain]
    simpa using h.length_eq
  · rw [hdrain, List.map_map]
    have hcomp : (Prod.fst ∘ fun i : Nat => (i, i * i)) = id := rfl
    rw [hcomp, List.map_id]
    exact h
  · rw [hdrain]
    exact h.map (fun i => (i, i * i))

/-- Witness for C7: three tasks completing in the order 2, 0, 1. -/
theorem drainAsCompleted_exactly_once_witness :
    (drainAsCompleted (fun _ => 1) [2, 0, 1]).length = 3 ∧
      List.Perm ((drainAsCompleted (fun _ => 1) [2, 0, 1]).map Prod.fst) (List.range 3) ∧
      List.Perm (drainAsCompleted (fun _ => 1) [2, 0, 1]) ((List.range 3).map (fun i => (i, i * i))) :=
  drainAsCompleted_exactly_once 3 (fun _ => 1) [2, 0, 1] (by decide)

/-! ### Concurrent execution of the locked `Counter`
(`src/thread_synchronization.py`).

`increment_worker(counter, iterations)` runs `counter.increment()`
`iterations` times; `run_synchronization_example` launches `N` such
threads.  Each `increment` is `with self.lock: current = self.value;
time.sleep(0.001); self.value = current + 1`.  Concurrency is modelled
as a labelled transition system: a thread's increment is split at the
sleep yield point into the acquire-and-read step and the
write-and-release step; the lock forbids either step of any other
thread in between.  A schedule is an arbitrary list of labels, so every
interleaving of the `N` threads is covered. -/

/-- A worker thread's local state: how many increments it still has to
run (`increment_worker`'s loop), and, when it is inside the critical
section, the `current` value it read. -/
structure CThread where
  remaining : Nat
  holding : Option Nat
deriving DecidableEq, Repr

/-- Global state: the counter's `value`, the owner of `self.lock` (if
held), and all worker threads. -/
structure CSys where
  value : Nat
  lock : Option Nat
  threads : List CThread
deriving DecidableEq, Repr

/-- A scheduling choice: which thread performs which half of its
critical section next. -/
inductive CLabel where
  | acquire (i : Nat)
  | release (i : Nat)
deriving DecidableEq, Repr

/-- One step of the counter system.  `acquire i`: thread `i`, with
iterations left and not yet in its critical section, takes the free
lock and reads `current = value`.  `release i`: thread `i`, owning the
lock with read value `current`, writes `value = current + 1`, releases
the lock and finishes this loop iteration. -/
def cstep : CLabel → CSys → Option CSys
  | CLabel.acquire i, s =>
      match s.lock, s.threads[i]? with
      | none, some t =>
          match t.holding, t.remaining with
          | none, _ + 1 =>
              some ⟨s.value, some i, s.threads.set i ⟨t.remaining, some s.value⟩⟩
          | _, _ => none
      | _, _ => none
  | CLabel.release i, s =>
      match s.lock, s.threads[i]? with
      | some j, some t =>
          if j = i then
            match t.holding, t.remaining with
            | some current, r + 1 =>
                some ⟨current + 1, none, s.threads.set i ⟨r, none⟩⟩
            | _, _ => none
          else none
      | _, _ => none

/-- `run_synchronization_example`'s start state: counter at `0`, lock
free, `N` workers with `M` iterations each. -/
def cinit (N M : Nat) : CSys :=
  ⟨0, none, List.replicate N ⟨M, none⟩⟩

/-- Some scheduled thread takes a step. -/
def CStepRel (s s' : CSys) : Prop :=
  ∃ l, cstep l s = some s'

/-- States reachable from the start state under some interleaving. -/
def CReach (N M : Nat) (s : CSys) : Prop :=
  Relation.ReflTransGen CStepRel (cinit N M) s

/-- Total number of increments the threads still owe. -/
def sumRemaining (s : CSys) : Nat :=
  (s.threads.map (fun t => t.remaining)).sum

/-- All threads have finished `increment_worker` (joined). -/
def CTerminal (s : CSys) : Prop :=
  ∀ t ∈ s.threads, t.remaining = 0 ∧ t.holding = none

/-- The inductive invariant: a thread inside its critical section owns
the lock and its read `current` is still the counter's value, and the
counter plus the owed increments is constant. -/
def CInv (T : Nat) (s : CSys) : Prop :=
  (∀ i t, s.threads[i]? = some t → ∀ c, t.holding = some c → s.lock = some i ∧ c = s.value) ∧
    s.value + sumRemaining s = T

/-- Replacing a known element shifts a list's sum by the difference. -/
theorem sum_set_swap : ∀ (l : List Nat) (i a b : Nat),
    l[i]? = some a → (l.set i b).sum + a = l.sum + b := by
  intro l
  induction l with
  | nil => intro i a b h; simp at h
  | cons x rest ih =>
      intro i a b h
      cases i with
      | zero =>
          simp only [List.getElem?_cons_zero, Option.some.injEq] at h
          subst h
          simp only [List.set_cons_zero, List.sum_cons]
          omega
      | succ n =>
          simp only [List.getElem?_cons_succ] at h
          have := ih n a b h
          simp only [List.set_cons_succ, List.sum_cons]
          omega

/-- Inversion of an `acquire` step. -/
theorem cstep_acquire_inv (i : Nat) (s s' : CSys)
    (h : cstep (CLabel.acquire i) s = some s') :
    ∃ t, s.lock = none ∧ s.threads[i]? = some t ∧ t.holding = none ∧ 0 < t.remaining ∧
      s' = ⟨s.value, some i, s.threads.set i ⟨t.remaining, some s.value⟩⟩ := by
  simp only [cstep] at h
  split at h
  · rename_i t hlock ht
    split at h
    · rename_i r hhold hrem
      simp only [Option.some.injEq] at h
      exact ⟨t, hlock, ht, hhold, by omega, h.symm⟩
    · exact absurd h (by simp)
  · exact absurd h (by simp)

/-- Inversion of a `release` step. -/
theorem cstep_release_inv (i : Nat) (s s' : CSys)
    (h : cstep (CLabel.release i) s = some s') :
    ∃ t current r, s.lock = some i ∧ s.threads[i]? = some t ∧ t.holding = some current ∧
      t.remaining = r + 1 ∧ s' = ⟨current + 1, none, s.threads.set i ⟨r, none⟩⟩ := by
  simp only [cstep] at h
  split at h
  · rename_i j t hlock ht
    split at h
    · rename_i hj
      subst hj
      split at h
      · rename_i current r hhold hrem
        simp only [Option.some.injEq] at h
        exact ⟨t, current, r, hlock, ht, hhold, hrem, h.symm⟩
      · exact absurd h (by simp)
    · exact absurd h (by simp)
  · exact absurd h (by simp)

/-- A thread record found in the threads list has an index below the
list's length. -/
theorem threads_index_lt {s : CSys} {i : Nat} {t : CThread}
    (h : s.threads[i]? = some t) : i < s.threads.length :=
  List.getElem?_eq_some.1 h |>.1

/-- The invariant holds at the start state. -/
theorem cinv_init (N M : Nat) : CInv (N * M) (cinit N M) := by
  constructor
  · intro i t ht c hc
    have hmem : t ∈ List.replicate N (⟨M, none⟩ : CThread) := List.getElem?_mem ht
    have := List.eq_of_mem_replicate hmem
    rw [this] at hc
    exact absurd hc (by simp)
  · simp [cinit, sumRemaining, List.map_replicate, List.sum_replicate, smul_eq_mul]

/-- The invariant is preserved by every step of every thread. -/
theorem cinv_preserved (T : Nat) (s s' : CSys) (hinv : CInv T s) (hstep : CStepRel s s') :
    CInv T s' := by
  obtain ⟨l, hl⟩ := hstep
  cases l with
  | acquire i =>
      obtain ⟨t, hlock, ht, hhold, hrem, rfl⟩ := cstep_acquire_inv i s _ hl
      have hilt : i < s.threads.length := threads_index_lt ht
      constructor
      · intro j tj htj c hc
        by_cases hij : j = i
        · subst hij
          rw [List.getElem?_set_eq_of_lt _ (by simpa using hilt)] at htj
          simp only [Option.some.injEq] at htj
          rw [← htj] at hc
          simp only [Option.some.injEq] at hc
          exact ⟨rfl, hc.symm⟩
        · rw [List.getElem?_set_ne (fun he => hij he.symm)] at htj
          have := (hinv.1 j tj htj c hc).1
          rw [hlock] at this
          exact absurd this (by simp)
      · have hm : (s.threads.map (fun t => t.remaining))[i]? = some t.remaining := by
          rw [List.getElem?_map, ht]
          rfl
        have hs := sum_set_swap (s.threads.map (fun t => t.remaining)) i t.remaining t.remaining hm
        have h2 := hinv.2
        simp only [sumRemaining, List.map_set] at h2 hs ⊢
        omega
  | release i =>
      obtain ⟨t, current, r, hlock, ht, hhold, hrem, rfl⟩ := cstep_release_inv i s _ hl
      have hilt : i < s.threads.length := threads_index_lt ht
      have hcv : current = s.value := (hinv.1 i t ht current hhold).2
      constructor
      · intro j tj htj c hc
        by_cases hij : j = i
        · subst hij
          rw [List.getElem?_set_eq_of_lt _ (by simpa using hilt)] at htj
          simp only [Option.some.injEq] at htj
          rw [← htj] at hc
          exact absurd hc (by simp)
        · rw [List.getElem?_set_ne (fun he => hij he.symm)] at htj
          have := (hinv.1 j tj htj c hc).1
          rw [hlock] at this
          simp only [Option.some.injEq] at this
          exact absurd this.symm hij
      · have hm : (s.threads.map (fun t => t.remaining))[i]? = some t.remaining := by
          rw [List.getElem?_map, ht]
          rfl
        have hsum := sum_set_swap (s.threads.map (fun t => t.remaining)) i t.remaining r hm
        have h2 := hinv.2
        simp only [sumRemaining, List.map_set] at h2 hsum ⊢
        omega

/-- Every reachable state satisfies the invariant. -/
theorem creach_inv (N M : Nat) (s : CSys) (h : CReach N M s) : CInv (N * M) s := by
  induction h with
  | refl => exact cinv_init N M
  | tail _ hstep ih => exact cinv_preserved _ _ _ ih hstep

/-- C1: under every interleaving of the `N` worker threads of the
locked counter, (a) mutual exclusion holds — at most one thread is ever
inside its read-modify-write critical section, so no two increments
interleave — and (b) once all threads have finished their `M`
increments, the counter's value (what `get_value` returns) is exactly
`N * M`; with `N = 10`, `M = 100` this is `1000`. -/
theorem counter_locked_exact (N M : Nat) (s : CSys) (h : CReach N M s) :
    (∀ (i j : Nat) (ti tj : CThread) (ci cj : Nat),
        s.threads[i]? = some ti → s.threads[j]? = some tj →
        ti.holding = some ci → tj.holding = some cj → i = j) ∧
      (CTerminal s → s.value = N * M) := by
  have hinv := creach_inv N M s h
  constructor
  · intro i j ti tj ci cj hti htj hci hcj
    have h1 := (hinv.1 i ti hti ci hci).1
    have h2 := (hinv.1 j tj htj cj hcj).1
    rw [h1] at h2
    simpa using h2
  · intro hterm
    have hz : sumRemaining s = 0 := by
      unfold sumRemaining
      refine List.sum_eq_zero ?_
      intro x hx
      obtain ⟨t, htm, rfl⟩ := List.mem_map.1 hx
      exact (hterm t htm).1
    have := hinv.2
    omega

/-- Deterministic runner for a schedule of labels; `none` means the
schedule is not executable. -/
def crun : List CLabel → CSys → Option CSys
  | [], s => some s
  | l :: ls, s =>
      match cstep l s with
      | none => none
      | some s' => crun ls s'

/-- A schedule the runner executes witnesses reachability. -/
theorem crun_reach : ∀ (ls : List CLabel) (s s' : CSys), crun ls s = some s' →
    Relation.ReflTransGen CStepRel s s' := by
  intro ls
  induction ls with
  | nil =>
      intro s s' h
      simp only [crun, Option.some.injEq] at h
      rw [h]
  | cons l ls ih =>
      intro s s' h
      simp only [crun] at h
      cases hc : cstep l s with
      | none => rw [hc] at h; exact absurd h (by simp)
      | some s1 =>
          rw [hc] at h
          exact Relation.ReflTransGen.head ⟨l, hc⟩ (ih s1 s' h)

/-- The schedule that runs thread `i` to completion, then the next. -/
def seqSchedule (N M : Nat) : List CLabel :=
  (List.range N).flatMap
    (fun i => (List.replicate M [CLabel.acquire i, CLabel.release i]).flatten)

set_option maxRecDepth 100000 in
/-- Witness for C1: a concrete complete run of the claim's own workload
— 10 threads × 100 increments — reaches a terminal state whose counter
value the theorem pins to `10 * 100 = 1000`. -/
theorem counter_locked_exact_witness :
    CTerminal ⟨1000, none, List.replicate 10 ⟨0, none⟩⟩ ∧
      (⟨1000, none, List.replicate 10 ⟨0, none⟩⟩ : CSys).value = 10 * 100 :=
  have hreach : CReach 10 100 ⟨1000, none, List.replicate 10 ⟨0, none⟩⟩ :=
    crun_reach (seqSchedule 10 100) (cinit 10 100) _ (by decide)
  have hterm : CTerminal ⟨1000, none, List.replicate 10 ⟨0, none⟩⟩ := by
    unfold CTerminal
    decide
  ⟨hterm, (counter_locked_exact 10 100 _ hreach).2 hterm⟩

/-! ### The producer/consumer coordinator (`src/producer_consumer.py`).

`run_producer_consumer_example` starts the producers and consumers,
joins all producers, calls `work_queue.join()` (the spec's
`waitUntilDrained`), sets `stop_event` (the spec's `shutdown.raise()`),
and joins the consumers.  A consumer loops on
`while not stop_event.is_set() or not queue_obj.empty()`, so it exits
only on observing the stop event set and the queue empty; inside the
loop a `get(timeout=0.5)` either yields an item — processed and then
`task_done`d — or raises `Empty`, upon which the loop condition is
re-checked.  The whole system is a labelled transition system: producer
puts, the consumer loop's individual actions, and the coordinator's
four sequential phases; the queue itself follows the spec's
`BoundedQueue` as above.  An item is identified by
`(producer index, item index)`. -/

/-- A consumer's position in its loop: at the loop head / `get`
attempt, processing a retrieved item (before `task_done`), or exited. -/
inductive ConsSt where
  | atLoop
  | processing (item : Nat × Nat)
  | finished
deriving DecidableEq, Repr

/-- Whether a consumer currently holds an item it has not `task_done`d. -/
def isProcessing : ConsSt → Bool
  | ConsSt.processing _ => true
  | _ => false

/-- Global coordinator state.  `prods` maps each producer to
`(items produced so far, total to produce)`; `phase` is the
coordinator's progress through `run_producer_consumer_example`:
0 threads running, 1 producers joined, 2 `queue.join()` returned,
3 stop event set, 4 consumers joined. -/
structure PCSys where
  prods : List (Nat × Nat)
  qitems : List (Nat × Nat)
  unfinished : Nat
  cons : List ConsSt
  stop : Bool
  phase : Nat
  cap : Nat
deriving DecidableEq, Repr

/-- A scheduling choice in the coordinator system. -/
inductive PCLabel where
  | prodPut (i : Nat)
  | consGetOk (i : Nat)
  | consGetEmpty (i : Nat)
  | consDone (i : Nat)
  | consExit (i : Nat)
  | joinProducers
  | queueJoin
  | setStop
  | joinConsumers
deriving DecidableEq, Repr

/-- One step of the coordinator system.  `prodPut i`: producer `i`,
with items left, completes a `put` (enabled while the queue is below
capacity).  `consGetOk i`: consumer `i` at its loop head gets the
oldest item.  `consGetEmpty i`: its `get` times out with `Empty` on an
empty queue and it goes back to the loop condition.  `consDone i`: it
finishes processing and calls `task_done`.  `consExit i`: at the loop
head it observes the stop event set and the queue empty and exits.
The coordinator steps follow the source's orchestration order. -/
def pcstep : PCLabel → PCSys → Option PCSys
  | PCLabel.prodPut i, s =>
      match s.prods[i]? with
      | some pt =>
          if pt.1 < pt.2 ∧ s.qitems.length < s.cap then
            some ⟨s.prods.set i (pt.1 + 1, pt.2), s.qitems ++ [(i, pt.1)],
              s.unfinished + 1, s.cons, s.stop, s.phase, s.cap⟩
          else none
      | none => none
  | PCLabel.consGetOk i, s =>
      match s.cons[i]?, s.qitems with
      | some ConsSt.atLoop, x :: rest =>
          some ⟨s.prods, rest, s.unfinished,
            s.cons.set i (ConsSt.processing x), s.stop, s.phase, s.cap⟩
      | _, _ => none
  | PCLabel.consGetEmpty i, s =>
      match s.cons[i]?, s.qitems with
      | some ConsSt.atLoop, [] => some s
      | _, _ => none
  | PCLabel.consDone i, s =>
      match s.cons[i]? with
      | some (ConsSt.processing _) =>
          some ⟨s.prods, s.qitems, s.unfinished - 1,
            s.cons.set i ConsSt.atLoop, s.stop, s.phase, s.cap⟩
      | _ => none
  | PCLabel.consExit i, s =>
      match s.cons[i]?, s.qitems, s.stop with
      | some ConsSt.atLoop, [], true =>
          some ⟨s.prods, s.qitems, s.unfinished,
            s.cons.set i ConsSt.finished, s.stop, s.phase, s.cap⟩
      | _, _, _ => none
  | PCLabel.joinProducers, s =>
      if s.phase = 0 ∧ ∀ pt ∈ s.prods, pt.1 = pt.2 then
        some ⟨s.prods, s.qitems, s.unfinished, s.cons, s.stop, 1, s.cap⟩
      else none
  | PCLabel.queueJoin, s =>
      if s.phase = 1 ∧ s.unfinished = 0 then
        some ⟨s.prods, s.qitems, s.unfinished, s.cons, s.stop, 2, s.cap⟩
      else none
  | PCLabel.setStop, s =>
      if s.phase = 2 then
        some ⟨s.prods, s.qitems, s.unfinished, s.cons, true, 3, s.cap⟩
      else none
  | PCLabel.joinConsumers, s =>
      if s.phase = 3 ∧ ∀ c ∈ s.cons, c = ConsSt.finished then
        some ⟨s.prods, s.qitems, s.unfinished, s.cons, s.stop, 4, s.cap⟩
      else none

/-- `run_producer_consumer_example`'s start state: `np` producers with
`ni` items each, `nc` consumers at their loop heads, empty queue of
capacity `cap`, stop event clear. -/
def pcinit (np ni nc cap : Nat) : PCSys :=
  ⟨List.replicate np (0, ni), [], 0, List.replicate nc ConsSt.atLoop, false, 0, cap⟩

/-- Some scheduled thread or coordinator action takes a step. -/
def PCStepRel (s s' : PCSys) : Prop :=
  ∃ l, pcstep l s = some s'

/-- States reachable from the start state under some interleaving. -/
def PCReach (np ni nc cap : Nat) (s : PCSys) : Prop :=
  Relation.ReflTransGen PCStepRel (pcinit np ni nc cap) s

/-- All producers have produced everything (`join`ed). -/
def prodsDone (s : PCSys) : Prop :=
  ∀ pt ∈ s.prods, pt.1 = pt.2

/-- The spec's `isDrained()`: no items held and no unfinished
(taken-but-not-`task_done`d) work, i.e. `queue.join()` would return. -/
def pcDrained (s : PCSys) : Prop :=
  s.qitems = [] ∧ s.unfinished = 0

/-- The inductive invariant of the coordinator system. -/
def PCInv (s : PCSys) : Prop :=
  s.unfinished = s.qitems.length + s.cons.countP isProcessing ∧
    (1 ≤ s.phase → prodsDone s) ∧
    (2 ≤ s.phase → s.unfinished = 0) ∧
    (s.stop = true ↔ 3 ≤ s.phase) ∧
    (∀ i : Nat, s.cons[i]? = some ConsSt.finished → s.stop = true)

/-- An index that looks up successfully is below the list's length. -/
theorem getElem?_some_lt {α : Type} {l : List α} {i : Nat} {a : α}
    (h : l[i]? = some a) : i < l.length :=
  (List.getElem?_eq_some.1 h).1

/-- Replacing a known element shifts `countP` by the predicate's
difference on old and new element. -/
theorem countP_set_swap {α : Type} (p : α → Bool) : ∀ (l : List α) (i : Nat) (a b : α),
    l[i]? = some a →
    (l.set i b).countP p + (if p a then 1 else 0) =
      l.countP p + (if p b then 1 else 0) := by
  intro l
  induction l with
  | nil => intro i a b h; simp at h
  | cons x rest ih =>
      intro i a b h
      cases i with
      | zero =>
          simp only [List.getElem?_cons_zero, Option.some.injEq] at h
          subst h
          simp only [List.set_cons_zero, List.countP_cons]
          omega
      | succ n =>
          simp only [List.getElem?_cons_succ] at h
          have := ih n a b h
          simp only [List.set_cons_succ, List.countP_cons]
          omega

/-- Inversion of a producer `put` step. -/
theorem pcstep_prodPut_inv (i : Nat) (s s' : PCSys)
    (h : pcstep (PCLabel.prodPut i) s = some s') :
    ∃ pt, s.prods[i]? = some pt ∧ pt.1 < pt.2 ∧ s.qitems.length < s.cap ∧
      s' = ⟨s.prods.set i (pt.1 + 1, pt.2), s.qitems ++ [(i, pt.1)],
        s.unfinished + 1, s.cons, s.stop, s.phase, s.cap⟩ := by
  simp only [pcstep] at h
  split at h
  · rename_i pt hpt
    split at h
    · rename_i hc
      simp only [Option.some.injEq] at h
      exact ⟨pt, hpt, hc.1, hc.2, h.symm⟩
    · exact absurd h (by simp)
  · exact absurd h (by simp)

/-- Inversion of a successful consumer `get` step. -/
theorem pcstep_consGetOk_inv (i : Nat) (s s' : PCSys)
    (h : pcstep (PCLabel.consGetOk i) s = some s') :
    ∃ x rest, s.cons[i]? = some ConsSt.atLoop ∧ s.qitems = x :: rest ∧
      s' = ⟨s.prods, rest, s.unfinished,
        s.cons.set i (ConsSt.processing x), s.stop, s.phase, s.cap⟩ := by
  simp only [pcstep] at h
  split at h
  · rename_i x rest hc hq
    simp only [Option.some.injEq] at h
    exact ⟨x, rest, hc, hq, h.symm⟩
  · exact absurd h (by simp)

/-- Inversion of an `Empty`-timeout consumer `get` step. -/
theorem pcstep_consGetEmpty_inv (i : Nat) (s s' : PCSys)
    (h : pcstep (PCLabel.consGetEmpty i) s = some s') :
    s.cons[i]? = some ConsSt.atLoop ∧ s.qitems = [] ∧ s' = s := by
  simp only [pcstep] at h
  split at h
  · rename_i hc hq
    simp only [Option.some.injEq] at h
    exact ⟨hc, hq, h.symm⟩
  · exact absurd h (by simp)

/-- Inversion of a consumer `task_done` step. -/
theorem pcstep_consDone_inv (i : Nat) (s s' : PCSys)
    (h : pcstep (PCLabel.consDone i) s = some s') :
    ∃ x, s.cons[i]? = some (ConsSt.processing x) ∧
      s' = ⟨s.prods, s.qitems, s.unfinished - 1,
        s.cons.set i ConsSt.atLoop, s.stop, s.phase, s.cap⟩ := by
  simp only [pcstep] at h
  split at h
  · rename_i x hc
    simp only [Option.some.injEq] at h
    exact ⟨x, hc, h.symm⟩
  · exact absurd h (by simp)

/-- Inversion of a consumer exit step. -/
theorem pcstep_consExit_inv (i : Nat) (s s' : PCSys)
    (h : pcstep (PCLabel.consExit i) s = some s') :
    s.cons[i]? = some ConsSt.atLoop ∧ s.qitems = [] ∧ s.stop = true ∧
      s' = ⟨s.prods, s.qitems, s.unfinished,
        s.cons.set i ConsSt.finished, s.stop, s.phase, s.cap⟩ := by
  simp only [pcstep] at h
  split at h
  · rename_i hc hq hst
    simp only [Option.some.injEq] at h
    exact ⟨hc, hq, hst, h.symm⟩
  · exact absurd h (by simp)

/-- The invariant holds at the start state. -/
theorem pcinv_init (np ni nc cap : Nat) : PCInv (pcinit np ni nc cap) := by
  refine ⟨?_, ?_, ?_, ?_, ?_⟩
  · have : ∀ c ∈ List.replicate nc ConsSt.atLoop, ¬ isProcessing c = true := by
      intro c hc
      rw [List.eq_of_mem_replicate hc]
      simp [isProcessing]
    simp [pcinit, List.countP_eq_zero.2 this]
  · intro h; simp [pcinit] at h
  · intro h; simp [pcinit] at h
  · simp [pcinit]
  · intro i h
    simp only [pcinit] at h
    have := List.eq_of_mem_replicate (List.getElem?_mem h)
    simp at this

/-- The invariant is preserved by every step. -/
theorem pcinv_preserved (s s' : PCSys) (hinv : PCInv s) (hstep : PCStepRel s s') :
    PCInv s' := by
  obtain ⟨h1, h2, h3, h4, h5⟩ := hinv
  obtain ⟨l, hl⟩ := hstep
  cases l with
  | prodPut i =>
      obtain ⟨pt, hpt, hlt, hcap, rfl⟩ := pcstep_prodPut_inv i s _ hl
      have hmem := List.getElem?_mem hpt
      refine ⟨?_, ?_, ?_, by simpa using h4, by simpa using h5⟩
      · simp only [List.length_append, List.length_cons, List.length_nil]
        omega
      · intro hph
        have heq : pt.1 = pt.2 := h2 (by simpa using hph) pt hmem
        omega
      · intro hph
        have heq : pt.1 = pt.2 := h2 (by simp at hph; omega) pt hmem
        omega
  | consGetOk i =>
      obtain ⟨x, rest, hc, hq, rfl⟩ := pcstep_consGetOk_inv i s _ hl
      have hswap := countP_set_swap isProcessing s.cons i ConsSt.atLoop (ConsSt.processing x) hc
      have hlt : i < s.cons.length := getElem?_some_lt hc
      refine ⟨?_, by simpa [prodsDone] using h2, ?_, by simpa using h4, ?_⟩
      · simp [isProcessing] at hswap
        rw [hq] at h1
        simp only [List.length_cons] at h1
        simp only []
        omega
      · intro hph
        exact h3 (by simpa using hph)
      · intro j hj
        by_cases hij : j = i
        · subst hij
          rw [List.getElem?_set_eq_of_lt _ hlt] at hj
          simp at hj
        · rw [List.getElem?_set_ne (Ne.symm hij)] at hj
          exact h5 j hj
  | consGetEmpty i =>
      obtain ⟨_, _, rfl⟩ := pcstep_consGetEmpty_inv i s _ hl
      exact ⟨h1, h2, h3, h4, h5⟩
  | consDone i =>
      obtain ⟨x, hc, rfl⟩ := pcstep_consDone_inv i s _ hl
      have hswap := countP_set_swap isProcessing s.cons i (ConsSt.processing x) ConsSt.atLoop hc
      have hlt : i < s.cons.length := getElem?_some_lt hc
      refine ⟨?_, by simpa [prodsDone] using h2, ?_, by simpa using h4, ?_⟩
      · simp [isProcessing] at hswap
        simp only []
        omega
      · intro hph
        have := h3 (by simpa using hph)
        simp [isProcessing] at hswap
        simp only []
        omega
      · intro j hj
        by_cases hij : j = i
        · subst hij
          rw [List.getElem?_set_eq_of_lt _ hlt] at hj
          simp at hj
        · rw [List.getElem?_set_ne (Ne.symm hij)] at hj
          exact h5 j hj
  | consExit i =>
      obtain ⟨hc, hq, hst, rfl⟩ := pcstep_consExit_inv i s _ hl
      have hswap := countP_set_swap isProcessing s.cons i ConsSt.atLoop ConsSt.finished hc
      refine ⟨?_, by simpa [prodsDone] using h2, by simpa using h3, by simpa using h4, ?_⟩
      · simp [isProcessing] at hswap
        simp only []
        omega
      · intro j _
        exact hst
  | joinProducers =>
      simp only [pcstep] at hl
      split at hl
      · rename_i hcond
        simp only [Option.some.injEq] at hl
        subst hl
        refine ⟨h1, fun _ => ?_, ?_, ?_, h5⟩
        · simpa [prodsDone] using hcond.2
        · intro hph; simp at hph
        · simp only []
          rw [h4]
          omega
      · exact absurd hl (by simp)
  | queueJoin =>
      simp only [pcstep] at hl
      split at hl
      · rename_i hcond
        simp only [Option.some.injEq] at hl
        subst hl
        refine ⟨h1, fun _ => by simpa [prodsDone] using h2 (by omega), fun _ => hcond.2, ?_, h5⟩
        simp only []
        rw [h4]
        omega
      · exact absurd hl (by simp)
  | setStop =>
      simp only [pcstep] at hl
      split at hl
      · rename_i hcond
        simp only [Option.some.injEq] at hl
        subst hl
        refine ⟨h1, fun _ => by simpa [prodsDone] using h2 (by omega),
          fun _ => h3 (by omega), by simp, fun _ _ => rfl⟩
      · exact absurd hl (by simp)
  | joinConsumers =>
      simp only [pcstep] at hl
      split at hl
      · rename_i hcond
        simp only [Option.some.injEq] at hl
        subst hl
        refine ⟨h1, fun _ => by simpa [prodsDone] using h2 (by omega),
          fun _ => h3 (by omega), ?_, fun j hj => by simpa using h5 j hj⟩
        simp only []
        rw [h4]
        omega
      · exact absurd hl (by simp)

/-- Every reachable state of the coordinator satisfies the invariant. -/
theorem pcreach_inv (np ni nc cap : Nat) (s : PCSys)
    (h : PCReach np ni nc cap s) : PCInv s := by
  induction h with
  | refl => exact pcinv_init np ni nc cap
  | tail _ hstep ih => exact pcinv_preserved _ _ ih hstep

/-- C3: in every reachable state of the coordinator, if the shutdown
signal is raised then the coordinator has passed `setStop` (phase ≥ 3),
so all producers were joined and `queue.join()` (`waitUntilDrained`)
had returned, and the queue is drained; consequently a consumer can
only be terminated when the queue is drained — no consumer terminates
while `isDrained()` is false. -/
theorem drain_before_shutdown (np ni nc cap : Nat) (s : PCSys)
    (h : PCReach np ni nc cap s) :
    (s.stop = true → 3 ≤ s.phase ∧ prodsDone s ∧ pcDrained s) ∧
      (∀ i : Nat, s.cons[i]? = some ConsSt.finished → pcDrained s) := by
  obtain ⟨h1, h2, h3, h4, h5⟩ := pcreach_inv np ni nc cap s h
  have key : s.stop = true → 3 ≤ s.phase ∧ prodsDone s ∧ pcDrained s := by
    intro hstop
    have hph := h4.1 hstop
    have hu : s.unfinished = 0 := h3 (by omega)
    have hq : s.qitems = [] := by
      rw [hu] at h1
      exact List.length_eq_zero.1 (by omega)
    exact ⟨hph, h2 (by omega), hq, hu⟩
  exact ⟨key, fun i hfin => (key (h5 i hfin)).2.2⟩

/-- Deterministic runner for a schedule of coordinator labels. -/
def pcrun : List PCLabel → PCSys → Option PCSys
  | [], s => some s
  | l :: ls, s =>
      match pcstep l s with
      | none => none
      | some s' => pcrun ls s'

/-- A schedule the runner executes witnesses reachability. -/
theorem pcrun_reach : ∀ (ls : List PCLabel) (s s' : PCSys), pcrun ls s = some s' →
    Relation.ReflTransGen PCStepRel s s' := by
  intro ls
  induction ls with
  | nil =>
      intro s s' h
      simp only [pcrun, Option.some.injEq] at h
      rw [h]
  | cons l ls ih =>
      intro s s' h
      simp only [pcrun] at h
      cases hc : pcstep l s with
      | none => rw [hc] at h; exact absurd h (by simp)
      | some s1 =>
          rw [hc] at h
          exact Relation.ReflTransGen.head ⟨l, hc⟩ (ih s1 s' h)

/-- The source's configuration: 2 producers × 5 items, 3 consumers,
capacity 10; a full schedule of one complete run. -/
def exampleSchedule : List PCLabel :=
  List.replicate 5 (PCLabel.prodPut 0) ++ List.replicate 5 (PCLabel.prodPut 1) ++
    (List.replicate 10 [PCLabel.consGetOk 0, PCLabel.consDone 0]).flatten ++
    [PCLabel.joinProducers, PCLabel.queueJoin, PCLabel.setStop,
      PCLabel.consExit 0, PCLabel.consExit 1, PCLabel.consExit 2, PCLabel.joinConsumers]

/-- Witness for C3: the source's own configuration run to completion
ends with the shutdown raised and the queue drained. -/
theorem drain_before_shutdown_witness :
    pcDrained ⟨[(5, 5), (5, 5)], [], 0, List.replicate 3 ConsSt.finished, true, 4, 10⟩ ∧
      prodsDone ⟨[(5, 5), (5, 5)], [], 0, List.replicate 3 ConsSt.finished, true, 4, 10⟩ :=
  have hreach : PCReach 2 5 3 10
      ⟨[(5, 5), (5, 5)], [], 0, List.replicate 3 ConsSt.finished, true, 4, 10⟩ :=
    pcrun_reach exampleSchedule (pcinit 2 5 3 10) _ (by decide)
  have hconc := (drain_before_shutdown 2 5 3 10 _ hreach).1 rfl
  ⟨hconc.2.2, hconc.2.1⟩

/-- Which consumer a label belongs to, if any. -/
def consOwner : PCLabel → Option Nat
  | PCLabel.consGetOk i => some i
  | PCLabel.consGetEmpty i => some i
  | PCLabel.consDone i => some i
  | PCLabel.consExit i => some i
  | _ => none

/-- C4: the consumer loop's contract, for any step of consumer `i`:
it exits only observing the stop event set and the queue empty; an
`Empty` timeout leaves the whole state unchanged, the consumer back at
the loop condition rather than exited; a successful `get` takes the
head item into processing; and from the processing state the only
possible action is `task_done` (decrementing the unfinished count)
before returning to the loop head for the next iteration. -/
theorem consumer_loop_contract (s s' : PCSys) (l : PCLabel) (i : Nat)
    (hown : consOwner l = some i) (hstep : pcstep l s = some s') :
    (l = PCLabel.consExit i →
        s.stop = true ∧ s.qitems = [] ∧ s'.cons = s.cons.set i ConsSt.finished) ∧
      (l = PCLabel.consGetEmpty i → s' = s ∧ s.cons[i]? = some ConsSt.atLoop) ∧
      (∀ x rest, l = PCLabel.consGetOk i → s.qitems = x :: rest →
        s'.cons = s.cons.set i (ConsSt.processing x) ∧ s'.qitems = rest) ∧
      (∀ x, s.cons[i]? = some (ConsSt.processing x) →
        l = PCLabel.consDone i ∧ s'.cons = s.cons.set i ConsSt.atLoop ∧
          s'.unfinished = s.unfinished - 1) := by
  cases l with
  | consGetOk j =>
      simp only [consOwner, Option.some.injEq] at hown
      subst hown
      obtain ⟨x, rest, hc, hq, rfl⟩ := pcstep_consGetOk_inv j s _ hstep
      refine ⟨fun he => absurd he (by simp), fun he => absurd he (by simp), ?_, ?_⟩
      · intro x' rest' _ hq'
        rw [hq] at hq'
        obtain ⟨rfl, rfl⟩ : x = x' ∧ rest = rest' := by
          simpa using hq'
        exact ⟨rfl, rfl⟩
      · intro x' hx'
        rw [hc] at hx'
        simp at hx'
  | consGetEmpty j =>
      simp only [consOwner, Option.some.injEq] at hown
      subst hown
      obtain ⟨hc, hq, rfl⟩ := pcstep_consGetEmpty_inv j s _ hstep
      refine ⟨fun he => absurd he (by simp), fun _ => ⟨rfl, hc⟩,
        fun x rest he => absurd he (by simp), ?_⟩
      intro x' hx'
      rw [hc] at hx'
      simp at hx'
  | consDone j =>
      simp only [consOwner, Option.some.injEq] at hown
      subst hown
      obtain ⟨x, hc, rfl⟩ := pcstep_consDone_inv j s _ hstep
      exact ⟨fun he => absurd he (by simp), fun he => absurd he (by simp),
        fun x' rest' he => absurd he (by simp), fun x' _ => ⟨rfl, rfl, rfl⟩⟩
  | consExit j =>
      simp only [consOwner, Option.some.injEq] at hown
      subst hown
      obtain ⟨hc, hq, hst, rfl⟩ := pcstep_consExit_inv j s _ hstep
      refine ⟨fun _ => ⟨hst, hq, rfl⟩, fun he => absurd he (by simp),
        fun x rest he => absurd he (by simp), ?_⟩
      intro x' hx'
      rw [hc] at hx'
      simp at hx'
  | prodPut j => simp [consOwner] at hown
  | joinProducers => simp [consOwner] at hown
  | queueJoin => simp [consOwner] at hown
  | setStop => simp [consOwner] at hown
  | joinConsumers => simp [consOwner] at hown

/-- Witness for C4: a concrete consumer exit step, which indeed happens
with the stop event set and the queue empty. -/
theorem consumer_loop_contract_witness :
    (⟨[(1, 1)], [], 0, [ConsSt.atLoop], true, 3, 10⟩ : PCSys).stop = true ∧
      (⟨[(1, 1)], [], 0, [ConsSt.atLoop], true, 3, 10⟩ : PCSys).qitems = [] ∧
      (⟨[(1, 1)], [], 0, [ConsSt.finished], true, 3, 10⟩ : PCSys).cons =
        ([ConsSt.atLoop].set 0 ConsSt.finished) :=
  (consumer_loop_contract ⟨[(1, 1)], [], 0, [ConsSt.atLoop], true, 3, 10⟩
      ⟨[(1, 1)], [], 0, [ConsSt.finished], true, 3, 10⟩
      (PCLabel.consExit 0) 0 rfl rfl).1 rfl

/-- C10: `task task_id` returns a triple whose first component is the
input `task_id` and whose second is `task_id * task_id`, whatever sleep
duration was sampled: the result payload is a deterministic function of
the input. -/
theorem task_result_deterministic (n d : Nat) :
    (task n d).1 = n ∧ (task n d).2.1 = n * n :=
  ⟨rfl, rfl⟩

end MT
